import Mathlib

/-!
Verification of the core of an "unused block id" scanner and remover for a
markdown vault (source: src/main.ts).

The embedding models:
* `collectBlockIdsAndReferences` — per-document scan collecting block-id
  definitions (lines matching the regex `(?:\s|^)\^([\w-]+)$`) into an
  insertion-ordered map keyed by `filePath#blockId`, and block-id references
  (occurrences of `[[target#^id ...]]`, resolved through a link-resolution
  collaborator) into a set of `resolvedPath#id` keys.
* `findUnusedBlockIds` — folds the collector over the corpus and returns the
  definitions whose `file#id` key is absent from the reference set.
* `deleteUnusedBlockIds` — groups a confirmed batch by file and, per entry,
  re-checks the recorded line against the regex `\s*\^id$` before stripping
  the matched suffix; a document's content is returned unchanged when no
  entry applied.

Strings are handled through their underlying character lists; JavaScript
character classes (`\w`, `\s`, `.`) are modelled explicitly.
-/

/-- JavaScript word character class `\w`: ASCII letters, digits, underscore. -/
def isWordChar (c : Char) : Bool :=
  (97 ≤ c.toNat && c.toNat ≤ 122) || (65 ≤ c.toNat && c.toNat ≤ 90) ||
  (48 ≤ c.toNat && c.toNat ≤ 57) || c.toNat == 95

/-- Character class `[\w-]` used for block-id tokens. -/
def isTokenChar (c : Char) : Bool :=
  isWordChar c || c.toNat == 45

/-- JavaScript whitespace class `\s` (WhiteSpace plus LineTerminator). -/
def isJsSpace (c : Char) : Bool :=
  c.toNat == 32 || c.toNat == 9 || c.toNat == 10 || c.toNat == 11 ||
  c.toNat == 12 || c.toNat == 13 || c.toNat == 160 || c.toNat == 5760 ||
  (8192 ≤ c.toNat && c.toNat ≤ 8202) || c.toNat == 8232 || c.toNat == 8233 ||
  c.toNat == 8239 || c.toNat == 8287 || c.toNat == 12288 || c.toNat == 65279

/-- JavaScript `.` (dot) without the `s` flag: any character except a line
terminator. -/
def isDotChar (c : Char) : Bool :=
  !(c.toNat == 10 || c.toNat == 13 || c.toNat == 8232 || c.toNat == 8233)

/-- Split a character list at newline characters, as JavaScript
`content.split('\n')` does: an empty input yields one empty line, and a
trailing newline yields a trailing empty line. -/
def splitLinesAux : List Char → List Char → List (List Char)
  | [], acc => [acc.reverse]
  | c :: rest, acc =>
    if c = '\n' then acc.reverse :: splitLinesAux rest []
    else splitLinesAux rest (c :: acc)

/-- Split document content into physical lines (JavaScript `split('\n')`). -/
def splitLines (content : List Char) : List (List Char) :=
  splitLinesAux content []

/-- Rejoin lines with newlines (JavaScript `lines.join('\n')`). -/
def joinLines : List (List Char) → List Char
  | [] => []
  | [l] => l
  | l :: l2 :: rest => l ++ '\n' :: joinLines (l2 :: rest)

/-- JavaScript `line.trim()`: remove leading and trailing whitespace. -/
def trimJs (l : List Char) : List Char :=
  ((l.dropWhile isJsSpace).reverse.dropWhile isJsSpace).reverse

/-- The record produced for each block-id definition
(interface `UnusedBlockId` in src/main.ts). `lineNumber` is the zero-based
line index at scan time; it is an integer because the deletion pass
explicitly guards against negative values. -/
structure UnusedBlockId where
  id : String
  file : String
  line : String
  lineNumber : Int
deriving Repr, DecidableEq

/-- The key string `${filePath}#${blockId}` used for both the definition map
and the reference set. -/
def mkKey (file id : String) : String := file ++ "#" ++ id

/-- Embedding of `isValidBlockId`: the full-string regex `^[\w-]+$`. -/
def isValidBlockId (id : String) : Bool :=
  !id.data.isEmpty && id.data.all isTokenChar

/-- Embedding of `line.match(/(?:\s|^)\^([\w-]+)$/)`, returning the capture.
A match requires the line to end in a caret followed by one or more token
characters, with the caret either at the start of the line or immediately
preceded by a whitespace character.  The capture is the token run after the
caret (necessarily the maximal token-character suffix of the line, since the
caret is not a token character). -/
def defMatch (line : List Char) : Option (List Char) :=
  let tok := line.reverse.takeWhile isTokenChar
  let rest := line.reverse.dropWhile isTokenChar
  if tok.isEmpty then none
  else if rest.head? = some '^' then
    if rest.tail = [] then some tok.reverse
    else if rest.tail.head?.map isJsSpace = some true then some tok.reverse
    else none
  else none

/-- Tail of the reference regex after `#^`: `([\w-]+)\s*(\|.*?)?\]\]`.
The id capture is greedy (no token character can be given back, since the
continuation starts with a whitespace character, a pipe or a bracket), then
optional whitespace, then an optional lazy `|display` part, then `]]`.
Returns the id capture and the rest of the line after the match. -/
def scanPipeClose : List Char → Option (List Char)
  | ']' :: ']' :: rest => some rest
  | c :: rest => if isDotChar c then scanPipeClose rest else none
  | [] => none

/-- Match the part of the reference pattern after the literal `#^`. -/
def matchIdPart (s : List Char) : Option (List Char × List Char) :=
  let tok := s.takeWhile isTokenChar
  if tok.isEmpty then none
  else
    match (s.dropWhile isTokenChar).dropWhile isJsSpace with
    | '|' :: rest => (scanPipeClose rest).map (fun after => (tok, after))
    | ']' :: ']' :: rest => some (tok, rest)
    | _ => none

/-- The lazy `(.*?)` target group of the reference regex: at each position,
first try to close the target with `#^` and a successful continuation;
otherwise extend the target by one dot-class character.  `acc` holds the
reversed target consumed so far; fuel bounds recursion depth. -/
def tryTarget : Nat → List Char → List Char → Option (String × String × List Char)
  | 0, _, _ => none
  | fuel + 1, s, acc =>
    let closed : Option (String × String × List Char) :=
      match s with
      | '#' :: '^' :: rest =>
        (matchIdPart rest).map
          (fun p => (String.mk acc.reverse, String.mk p.1, p.2))
      | _ => none
    match closed with
    | some r => some r
    | none =>
      match s with
      | c :: rest => if isDotChar c then tryTarget fuel rest (c :: acc) else none
      | [] => none

/-- Try to match `\[\[(.*?)#\^([\w-]+)\s*(\|.*?)?\]\]` at the head of `s`.
Returns target capture, id capture and the remainder after the match. -/
def matchRefAt (s : List Char) : Option (String × String × List Char) :=
  match s with
  | '[' :: '[' :: rest => tryTarget (rest.length + 1) rest []
  | _ => none

/-- The `while ((refMatch = blockIdRefRegex.exec(line)) !== null)` loop:
repeatedly find the leftmost match and continue after its end. -/
def lineRefsAux : Nat → List Char → List (String × String)
  | 0, _ => []
  | _, [] => []
  | fuel + 1, c :: rest =>
    match matchRefAt (c :: rest) with
    | some (t, i, after) => (t, i) :: lineRefsAux fuel after
    | none => lineRefsAux fuel rest

/-- All `[[target#^id ...]]` occurrences of a line, left to right. -/
def lineRefOccurrences (line : List Char) : List (String × String) :=
  lineRefsAux line.length line

/-- The collector's accumulating state: the insertion-ordered definition map
(JavaScript `Map<string, UnusedBlockId[]>`) and the reference key set
(JavaScript `Set<string>`). -/
structure ScanState where
  blockIds : List (String × List UnusedBlockId)
  refs : List String
deriving Repr

/-- JavaScript `Map` update used by the collector: ensure the key exists
(appending a fresh entry at the end preserves insertion order), then push the
new record onto its array. -/
def mapPush (m : List (String × List UnusedBlockId)) (k : String)
    (v : UnusedBlockId) : List (String × List UnusedBlockId) :=
  if m.any (fun p => p.1 == k) then
    m.map (fun p => if p.1 == k then (p.1, p.2 ++ [v]) else p)
  else m ++ [(k, [v])]

/-- Look a key up in the definition map (first entry with that key). -/
def mapGet (m : List (String × List UnusedBlockId)) (k : String) :
    Option (List UnusedBlockId) :=
  (m.find? (fun p => p.1 == k)).map Prod.snd

/-- JavaScript `Set.add`: append the key if not already present. -/
def insertSet (s : List String) (k : String) : List String :=
  if s.contains k then s else s ++ [k]

/-- Process one reference occurrence: resolve the written target against the
scanning document; on success (a truthy resolved path) add the key
`resolvedPath#id`, otherwise drop the occurrence. -/
def addRef (resolve : String → String → Option String) (filePath : String)
    (refs : List String) (occ : String × String) : List String :=
  match resolve occ.1 filePath with
  | some p => if p = "" then refs else insertSet refs (mkKey p occ.2)
  | none => refs

/-- The body of the per-line `forEach` in `collectBlockIdsAndReferences`:
record a definition when the line matches the definition regex (and the
capture passes `isValidBlockId`), then process every reference occurrence on
the line. -/
def collectLine (resolve : String → String → Option String) (filePath : String)
    (st : ScanState) (line : List Char) (index : Nat) : ScanState :=
  let st1 :=
    match defMatch line with
    | some tok =>
      if isValidBlockId (String.mk tok) then
        { st with
          blockIds := mapPush st.blockIds (mkKey filePath (String.mk tok))
            ⟨String.mk tok, filePath, String.mk (trimJs line), (index : Int)⟩ }
      else st
    | none => st
  { st1 with refs := (lineRefOccurrences line).foldl (addRef resolve filePath) st1.refs }

/-- Pair each line with its zero-based index, starting at `n`. -/
def withIndexFrom (n : Nat) : List (List Char) → List (Nat × List Char)
  | [] => []
  | l :: ls => (n, l) :: withIndexFrom (n + 1) ls

/-- Embedding of `collectBlockIdsAndReferences` for one document. -/
def collectDoc (resolve : String → String → Option String) (st : ScanState)
    (doc : String × String) : ScanState :=
  (withIndexFrom 0 (splitLines doc.2.data)).foldl
    (fun s p => collectLine resolve doc.1 s p.2 p.1) st

/-- The scan loop of `findUnusedBlockIds`: fold the collector over the corpus
starting from a freshly created map and set. -/
def scanCorpus (resolve : String → String → Option String)
    (files : List (String × String)) : ScanState :=
  files.foldl (collectDoc resolve) ⟨[], []⟩

/-- `Array.flatMap` over an insertion-ordered map's entries. -/
def flatMapL (f : α → List β) : List α → List β
  | [] => []
  | x :: xs => f x ++ flatMapL f xs

/-- Embedding of `findUnusedBlockIds`: scan the corpus, then keep every
collected definition whose `file#id` key is absent from the reference set. -/
def findUnusedBlockIds (resolve : String → String → Option String)
    (files : List (String × String)) : List UnusedBlockId :=
  let st := scanCorpus resolve files
  flatMapL (fun p => p.2.filter
    (fun item => !(st.refs.contains (mkKey item.file item.id)))) st.blockIds

/-- Does the deletion regex `\s*\^id$` match starting exactly here?  Because
the pattern is anchored at the end of the line and a caret is not whitespace,
a match from this position exists iff dropping leading whitespace leaves
exactly `^` followed by the id. -/
def matchesAt (l : List Char) (id : List Char) : Bool :=
  l.dropWhile isJsSpace == '^' :: id

/-- Embedding of `blockIdRegex.test(line)` for `\s*\^id$`: a match starts at
some position of the line. -/
def delTest (l : List Char) (id : List Char) : Bool :=
  match l with
  | [] => matchesAt [] id
  | c :: rest => matchesAt (c :: rest) id || delTest rest id

/-- Embedding of `line.replace(blockIdRegex, '')` for `\s*\^id$`: remove the
leftmost match (which necessarily extends to the end of the line); if there
is no match the line is returned unchanged. -/
def delReplace (l : List Char) (id : List Char) : List Char :=
  match l with
  | [] => []
  | c :: rest => if matchesAt (c :: rest) id then [] else c :: delReplace rest id

/-- The per-entry body of the deletion loop: skip entries whose recorded line
index is out of bounds of the current content, re-test the recorded line
against `\s*\^id$`, and only then strip the suffix, mark the file changed and
count the removal. -/
def stepEntry (acc : List (List Char) × Bool × Nat) (b : UnusedBlockId) :
    List (List Char) × Bool × Nat :=
  if 0 ≤ b.lineNumber ∧ b.lineNumber < (acc.1.length : Int) then
    let li := b.lineNumber.toNat
    let line := acc.1.getD li []
    if delTest line b.id.data then
      (acc.1.set li (delReplace line b.id.data), true, acc.2.2 + 1)
    else acc
  else acc

/-- The per-document transform passed to `vault.process`: split the current
content into lines, apply every batch entry for this document, and return the
rejoined lines only if something changed — otherwise the original content.
Also returns the number of removals performed on this document. -/
def processFileContent (entries : List UnusedBlockId) (content : List Char) :
    List Char × Nat :=
  let r := entries.foldl stepEntry (splitLines content, false, 0)
  (if r.2.1 then joinLines r.1 else content, r.2.2)

/-- Group a deletion batch by file path, preserving first-seen file order
(JavaScript object keyed by strings) and per-file entry order. -/
def groupByFile (batch : List UnusedBlockId) :
    List (String × List UnusedBlockId) :=
  batch.foldl
    (fun acc item =>
      if acc.any (fun p => p.1 == item.file) then
        acc.map (fun p => if p.1 == item.file then (p.1, p.2 ++ [item]) else p)
      else acc ++ [(item.file, [item])]) []

/-- Embedding of `deleteUnusedBlockIds` over an in-memory vault (an
association list of path and content): process each file group against the
vault's current content, skipping files that no longer exist, and accumulate
the total removal count. -/
def deleteUnusedBlockIds (vault : List (String × String))
    (batch : List UnusedBlockId) : List (String × String) × Nat :=
  (groupByFile batch).foldl
    (fun acc g =>
      match acc.1.find? (fun p => p.1 == g.1) with
      | some f =>
        let r := processFileContent g.2 f.2.data
        (acc.1.map (fun p => if p.1 == g.1 then (p.1, String.mk r.1) else p),
         acc.2 + r.2)
      | none => acc) (vault, 0)

/-- Running the scan twice over the same corpus, as two sequential
invocations (each invocation creates its map and set afresh). -/
def scanTwice (resolve : String → String → Option String)
    (files : List (String × String)) : List UnusedBlockId × List UnusedBlockId :=
  (findUnusedBlockIds resolve files, findUnusedBlockIds resolve files)

/-- Modelled from the spec (claim C2's grammar, §4.1): a line matches a
definition iff it ends with an optional, possibly empty, run of whitespace
followed by a caret immediately followed by one or more token characters,
with nothing after the token run; the captured token is the identifier
text. -/
def specDefGrammar (line : List Char) (tok : List Char) : Prop :=
  ∃ pre ws, line = pre ++ ws ++ '^' :: tok ∧ ws.all isJsSpace ∧
    tok ≠ [] ∧ tok.all isTokenChar

/-- The definition occurrences of one document's lines (index, line, token),
as matched by the collector's definition regex. -/
def docMatchesFrom (n : Nat) : List (List Char) → List (Nat × List Char × List Char)
  | [] => []
  | l :: ls =>
    match defMatch l with
    | some tok => (n, l, tok) :: docMatchesFrom (n + 1) ls
    | none => docMatchesFrom (n + 1) ls

/-- The definition record the collector builds for a match of document
`path`. -/
def mkDef (path : String) (m : Nat × List Char × List Char) : UnusedBlockId :=
  ⟨String.mk m.2.2, path, String.mk (trimJs m.2.1), (m.1 : Int)⟩

/-- The map entry the collector appends for a fresh match of document
`path`. -/
def mkGroup (path : String) (m : Nat × List Char × List Char) :
    String × List UnusedBlockId :=
  (mkKey path (String.mk m.2.2), [mkDef path m])

/-- The keys of the definition map. -/
def keysOf (m : List (String × List UnusedBlockId)) : List String :=
  m.map Prod.fst

/-- Index of a string in a list (length of the list if absent). -/
def idxOfStr (x : String) : List String → Nat
  | [] => 0
  | y :: ys => if y = x then 0 else idxOfStr x ys + 1

/-- The scan-result order claimed by the spec, relative to a corpus: an
earlier entry either comes from a document supplied earlier, or from the same
document and an earlier line. -/
def defOrder (files : List (String × String)) (a b : UnusedBlockId) : Prop :=
  idxOfStr a.file (files.map Prod.fst) < idxOfStr b.file (files.map Prod.fst) ∨
    (a.file = b.file ∧ a.lineNumber < b.lineNumber)

instance (files : List (String × String)) :
    DecidableRel (defOrder files) := by
  intro a b
  unfold defOrder
  infer_instance

/-! ### Generic list helpers -/

theorem takeWhile_append_all {α : Type} {p : α → Bool} :
    ∀ (l1 : List α) (c : α) (l2 : List α), (∀ x ∈ l1, p x = true) → p c = false →
      (l1 ++ c :: l2).takeWhile p = l1 := by
  intro l1 c l2 h1 hc
  induction l1 with
  | nil => simp [List.takeWhile_cons, hc]
  | cons a t ih =>
    simp only [List.cons_append, List.takeWhile_cons, h1 a (by simp)]
    simp only [if_true]
    rw [ih (fun x hx => h1 x (by simp [hx]))]

theorem dropWhile_append_all {α : Type} {p : α → Bool} :
    ∀ (l1 : List α) (c : α) (l2 : List α), (∀ x ∈ l1, p x = true) → p c = false →
      (l1 ++ c :: l2).dropWhile p = c :: l2 := by
  intro l1 c l2 h1 hc
  induction l1 with
  | nil => simp [List.dropWhile_cons, hc]
  | cons a t ih =>
    simp only [List.cons_append, List.dropWhile_cons, h1 a (by simp)]
    simp only [if_true]
    exact ih (fun x hx => h1 x (by simp [hx]))

theorem all_takeWhile {α : Type} (p : α → Bool) :
    ∀ (l : List α), (l.takeWhile p).all p = true := by
  intro l
  induction l with
  | nil => rfl
  | cons a t ih =>
    rw [List.takeWhile_cons]
    by_cases h : p a = true
    · simp [h, ih]
    · simp [h]

theorem mem_flatMapL {α β : Type} (f : α → List β) (b : β) :
    ∀ (l : List α), b ∈ flatMapL f l ↔ ∃ a ∈ l, b ∈ f a := by
  intro l
  induction l with
  | nil => simp [flatMapL]
  | cons x xs ih => simp [flatMapL, ih, List.mem_append, or_and_right, exists_or]

theorem flatMapL_append {α β : Type} (f : α → List β) :
    ∀ (l1 l2 : List α), flatMapL f (l1 ++ l2) = flatMapL f l1 ++ flatMapL f l2 := by
  intro l1 l2
  induction l1 with
  | nil => rfl
  | cons x xs ih => simp [flatMapL, ih]

theorem pairwise_flatMapL {α β : Type} (R : β → β → Prop) (f : α → List β) :
    ∀ (l : List α), (∀ a ∈ l, (f a).Pairwise R) →
      l.Pairwise (fun a b => ∀ x ∈ f a, ∀ y ∈ f b, R x y) →
      (flatMapL f l).Pairwise R := by
  intro l
  induction l with
  | nil => intro _ _; exact List.Pairwise.nil
  | cons x xs ih =>
    intro hall hcross
    rw [List.pairwise_cons] at hcross
    have : (flatMapL f xs).Pairwise R :=
      ih (fun a ha => hall a (by simp [ha])) hcross.2
    rw [show flatMapL f (x :: xs) = f x ++ flatMapL f xs from rfl, List.pairwise_append]
    refine ⟨hall x (by simp), this, ?_⟩
    intro a ha b hb
    obtain ⟨y, hy, hby⟩ := (mem_flatMapL f b xs).mp hb
    exact hcross.1 y hy a ha b hby

/-! ### Key encoding -/

theorem append_last_sep :
    ∀ (a b m1 m2 : List Char), '#' ∉ m1 → '#' ∉ m2 →
      a ++ '#' :: m1 = b ++ '#' :: m2 → a = b ∧ m1 = m2 := by
  intro a
  induction a with
  | nil =>
    intro b m1 m2 h1 h2 heq
    cases b with
    | nil => simpa using heq
    | cons c bt =>
      simp only [List.nil_append, List.cons_append, List.cons.injEq] at heq
      exact absurd (heq.2 ▸ List.mem_append_right bt (by simp)) h1
  | cons c at' ih =>
    intro b m1 m2 h1 h2 heq
    cases b with
    | nil =>
      simp only [List.cons_append, List.nil_append, List.cons.injEq] at heq
      exact absurd (heq.2.symm ▸ List.mem_append_right at' (by simp)) h2
    | cons d bt =>
      simp only [List.cons_append, List.cons.injEq] at heq
      obtain ⟨heq1, heq3⟩ := heq
      subst heq1
      obtain ⟨hab, hm⟩ := ih bt m1 m2 h1 h2 heq3
      exact ⟨by rw [hab], hm⟩

theorem mkKey_data (f i : String) : (mkKey f i).data = f.data ++ '#' :: i.data := by
  simp [mkKey]

theorem mkKey_inj (f1 f2 i1 i2 : String) (h1 : '#' ∉ i1.data) (h2 : '#' ∉ i2.data)
    (heq : mkKey f1 i1 = mkKey f2 i2) : f1 = f2 ∧ i1 = i2 := by
  have hd : f1.data ++ '#' :: i1.data = f2.data ++ '#' :: i2.data := by
    rw [← mkKey_data, ← mkKey_data, heq]
  obtain ⟨ha, hb⟩ := append_last_sep f1.data f2.data i1.data i2.data h1 h2 hd
  exact ⟨String.ext ha, String.ext hb⟩

theorem mkKey_inj_file (f1 f2 i : String) (heq : mkKey f1 i = mkKey f2 i) : f1 = f2 := by
  have hd : f1.data ++ '#' :: i.data = f2.data ++ '#' :: i.data := by
    rw [← mkKey_data, ← mkKey_data, heq]
  exact String.ext (List.append_cancel_right hd)

theorem mkKey_inj_id (f i1 i2 : String) (heq : mkKey f i1 = mkKey f i2) : i1 = i2 := by
  have hd : f.data ++ '#' :: i1.data = f.data ++ '#' :: i2.data := by
    rw [← mkKey_data, ← mkKey_data, heq]
  have := List.append_cancel_left hd
  exact String.ext (by injection this)

/-! ### Deletion-pattern lemmas -/

theorem matchesAt_here (ws id : List Char) (hws : ws.all isJsSpace = true) :
    matchesAt (ws ++ '^' :: id) id = true := by
  unfold matchesAt
  rw [dropWhile_append_all ws '^' id (fun x hx => by
        exact (List.all_eq_true.mp hws) x hx) (by decide)]
  simp

theorem delTest_of_matchesAt (l id : List Char) (h : matchesAt l id = true) :
    delTest l id = true := by
  cases l with
  | nil => simp [matchesAt] at h
  | cons c rest => simp [delTest, h]

theorem delReplace_of_matchesAt (l id : List Char) (h : matchesAt l id = true) :
    delReplace l id = [] := by
  cases l with
  | nil => rfl
  | cons c rest => simp [delReplace, h]

theorem matchesAt_pre_false :
    ∀ (pre2 : List Char) (d : Char) (ws id : List Char),
      isJsSpace d = false → ws.all isJsSpace = true →
      matchesAt ((pre2 ++ [d]) ++ ws ++ '^' :: id) id = false := by
  intro pre2
  induction pre2 with
  | nil =>
    intro d ws id hd hws
    simp only [List.nil_append, List.cons_append, matchesAt]
    rw [List.dropWhile_cons_of_neg (by simp [hd])]
    rw [beq_eq_false_iff_ne]
    intro h
    have := congrArg List.length h
    simp at this
    omega
  | cons p t ih =>
    intro d ws id hd hws
    by_cases hp : isJsSpace p = true
    · have := ih d ws id hd hws
      simp only [matchesAt] at this ⊢
      rw [show ((p :: t ++ [d]) ++ ws ++ '^' :: id) = p :: ((t ++ [d]) ++ ws ++ '^' :: id) from by simp,
        List.dropWhile_cons_of_pos (by simp [hp])]
      exact this
    · simp only [matchesAt]
      rw [show ((p :: t ++ [d]) ++ ws ++ '^' :: id) = p :: ((t ++ [d]) ++ ws ++ '^' :: id) from by simp,
        List.dropWhile_cons_of_neg (by simp [hp])]
      rw [beq_eq_false_iff_ne]
      intro h
      have := congrArg List.length h
      simp at this
      omega

theorem delReplace_pre :
    ∀ (pre ws id : List Char), ws.all isJsSpace = true →
      (pre = [] ∨ ∃ pre2 d, pre = pre2 ++ [d] ∧ isJsSpace d = false) →
      delTest (pre ++ ws ++ '^' :: id) id = true ∧
      delReplace (pre ++ ws ++ '^' :: id) id = pre := by
  intro pre
  induction pre with
  | nil =>
    intro ws id hws _
    have hm : matchesAt (ws ++ '^' :: id) id = true := matchesAt_here ws id hws
    exact ⟨delTest_of_matchesAt _ _ hm, delReplace_of_matchesAt _ _ hm⟩
  | cons p pt ih =>
    intro ws id hws hpre
    rcases hpre with h | ⟨pre2, d, hdec, hd⟩
    · exact absurd h (by simp)
    have hm : matchesAt ((p :: pt) ++ ws ++ '^' :: id) id = false := by
      rw [hdec]; exact matchesAt_pre_false pre2 d ws id hd hws
    have htail : delTest (pt ++ ws ++ '^' :: id) id = true ∧
        delReplace (pt ++ ws ++ '^' :: id) id = pt := by
      apply ih ws id hws
      cases pt with
      | nil => exact Or.inl rfl
      | cons q qt =>
        cases pre2 with
        | nil => simp at hdec
        | cons r rt =>
          right
          refine ⟨rt, d, ?_, hd⟩
          have h2 : p = r ∧ q :: qt = rt ++ [d] := by simpa using hdec
          exact h2.2
    have hm2 : matchesAt (p :: (pt ++ (ws ++ '^' :: id))) id = false := by
      simpa using hm
    have ht1 : delTest (pt ++ (ws ++ '^' :: id)) id = true := by
      simpa using htail.1
    have ht2 : delReplace (pt ++ (ws ++ '^' :: id)) id = pt := by
      simpa using htail.2
    constructor
    · show delTest ((p :: pt) ++ ws ++ '^' :: id) id = true
      rw [show (p :: pt) ++ ws ++ '^' :: id = p :: (pt ++ (ws ++ '^' :: id)) from by simp]
      simp [delTest, hm2, ht1]
    · show delReplace ((p :: pt) ++ ws ++ '^' :: id) id = p :: pt
      rw [show (p :: pt) ++ ws ++ '^' :: id = p :: (pt ++ (ws ++ '^' :: id)) from by simp]
      simp [delReplace, hm2, ht2]

theorem stepEntry_skip (lines : List (List Char)) (changed : Bool) (removed : Nat)
    (b : UnusedBlockId)
    (h : ¬(0 ≤ b.lineNumber ∧ b.lineNumber < (lines.length : Int) ∧
      delTest (lines.getD b.lineNumber.toNat []) b.id.data = true)) :
    stepEntry (lines, changed, removed) b = (lines, changed, removed) := by
  unfold stepEntry
  by_cases hb : 0 ≤ b.lineNumber ∧ b.lineNumber < (lines.length : Int)
  · rw [if_pos hb]
    have hdt : delTest (lines.getD b.lineNumber.toNat []) b.id.data = false := by
      rcases Bool.eq_false_or_eq_true (delTest (lines.getD b.lineNumber.toNat []) b.id.data)
        with hf | ht
      · exact absurd ⟨hb.1, hb.2, hf⟩ h
      · exact ht
    have hdt2 : delTest (lines[b.lineNumber.toNat]?.getD []) b.id.data = false := by
      simpa using hdt
    simp [hdt, hdt2]
  · rw [if_neg hb]

theorem collectLine_refs (resolve : String → String → Option String)
    (filePath : String) (st : ScanState) (line : List Char) (index : Nat) :
    (collectLine resolve filePath st line index).refs =
      (lineRefOccurrences line).foldl (addRef resolve filePath) st.refs := by
  unfold collectLine
  cases defMatch line with
  | none => rfl
  | some tok =>
    by_cases h : isValidBlockId (String.mk tok) = true
    · simp [h]
    · simp [h]

theorem foldl_addRef_none (resolve : String → String → Option String)
    (filePath : String) :
    ∀ (occs : List (String × String)) (refs : List String),
      (∀ occ ∈ occs, resolve occ.1 filePath = none) →
      occs.foldl (addRef resolve filePath) refs = refs := by
  intro occs
  induction occs with
  | nil => intro refs _; rfl
  | cons o ot ih =>
    intro refs h
    rw [List.foldl_cons]
    rw [show addRef resolve filePath refs o = refs from by
      simp [addRef, h o (by simp)]]
    exact ih refs (fun x hx => h x (by simp [hx]))

/-- C4: deletion is exact.  If the recorded line of a batch entry, in the
document's current lines, still ends with optional whitespace, then a caret,
then the entry's identifier (with the whitespace run maximal, i.e. the part
before it does not end in whitespace), then the deletion step replaces that
line by exactly the part before the suffix, marks the file changed,
increments the removed count, and leaves every other line byte-identical. -/
theorem claim_C4 (lines : List (List Char)) (changed : Bool) (removed : Nat)
    (b : UnusedBlockId) (idx : Nat) (pre ws : List Char)
    (h1 : b.lineNumber = (idx : Int)) (h2 : idx < lines.length)
    (h3 : lines.getD idx [] = pre ++ ws ++ '^' :: b.id.data)
    (h4 : ws.all isJsSpace = true)
    (h5 : pre = [] ∨ ∃ pre2 d, pre = pre2 ++ [d] ∧ isJsSpace d = false) :
    stepEntry (lines, changed, removed) b = (lines.set idx pre, true, removed + 1) ∧
    ∀ j, j ≠ idx → (lines.set idx pre).getD j [] = lines.getD j [] := by
  obtain ⟨ht, hr⟩ := delReplace_pre pre ws b.id.data h4 h5
  have hT : delTest (lines.getD idx []) b.id.data = true := by rw [h3]; exact ht
  have hR : delReplace (lines.getD idx []) b.id.data = pre := by rw [h3]; exact hr
  constructor
  · unfold stepEntry
    have hb : 0 ≤ b.lineNumber ∧ b.lineNumber < ((lines.length : Nat) : Int) := by
      constructor
      · rw [h1]; exact Int.ofNat_nonneg idx
      · rw [h1]; exact_mod_cast h2
    rw [if_pos hb]
    have hli : b.lineNumber.toNat = idx := by rw [h1]; rfl
    have hT2 : delTest (lines[idx]?.getD []) b.id.data = true := by
      simpa using hT
    have hR2 : delReplace (lines[idx]?.getD []) b.id.data = pre := by
      simpa using hR
    simp [hli, hT, hT2, hR, hR2]
  · intro j hj
    simp only [List.getD_eq_getElem?_getD]
    rw [List.getElem?_set_ne (by omega)]

/-- C4 witness: deleting `^abc123` from the line `Some text. ^abc123`
yields `Some text.` and a removal count of one. -/
theorem claim_C4_witness :
    stepEntry ([("Some text. ^abc123").data], false, 0)
        ⟨"abc123", "A.md", "Some text. ^abc123", 0⟩ =
      ([("Some text.").data], true, 1) ∧
    ∀ j, j ≠ 0 →
      (([("Some text. ^abc123").data]).set 0 (("Some text.").data)).getD j [] =
        ([("Some text. ^abc123").data]).getD j [] :=
  claim_C4 [("Some text. ^abc123").data] false 0
    ⟨"abc123", "A.md", "Some text. ^abc123", 0⟩ 0 (("Some text.").data) [' ']
    (by decide) (by decide) (by decide) (by decide)
    (Or.inr ⟨("Some text").data, '.', by decide, by decide⟩)

/-- C5: drift safety.  If the recorded line index is in bounds but the
current line no longer matches `\s*\^id$` for the entry's identifier, the
deletion step leaves the lines, the changed flag and the removed count
untouched (and raises no error: the step is total). -/
theorem claim_C5 (lines : List (List Char)) (changed : Bool) (removed : Nat)
    (b : UnusedBlockId) (idx : Nat)
    (h1 : b.lineNumber = (idx : Int)) (_h2 : idx < lines.length)
    (h3 : delTest (lines.getD idx []) b.id.data = false) :
    stepEntry (lines, changed, removed) b = (lines, changed, removed) := by
  apply stepEntry_skip
  intro hc
  obtain ⟨_, _, hdt⟩ := hc
  have hli : b.lineNumber.toNat = idx := by rw [h1]; rfl
  rw [hli] at hdt
  have hdt2 : delTest (lines[idx]?.getD []) b.id.data = true := by simpa using hdt
  simp [hdt2] at h3

/-- C5 witness: an entry recorded against a line that has since been edited
is skipped without touching the document. -/
theorem claim_C5_witness :
    stepEntry ([("Some edited text").data], false, 0)
        ⟨"abc123", "A.md", "Some text. ^abc123", 0⟩ =
      ([("Some edited text").data], false, 0) :=
  claim_C5 [("Some edited text").data] false 0
    ⟨"abc123", "A.md", "Some text. ^abc123", 0⟩ 0 (by decide) (by decide) (by decide)

theorem foldl_stepEntry_skip :
    ∀ (entries : List UnusedBlockId) (lines : List (List Char)),
      (∀ b ∈ entries, ¬(0 ≤ b.lineNumber ∧ b.lineNumber < (lines.length : Int) ∧
        delTest (lines.getD b.lineNumber.toNat []) b.id.data = true)) →
      entries.foldl stepEntry (lines, false, 0) = (lines, false, 0) := by
  intro entries
  induction entries with
  | nil => intro lines _; rfl
  | cons b bt ih =>
    intro lines h
    rw [List.foldl_cons, stepEntry_skip lines false 0 b (h b (by simp))]
    exact ih lines (fun x hx => h x (by simp [hx]))

/-- C6: write minimization.  When no entry of the batch applies to the
document's current content (every entry is out of bounds or fails the
re-test), the per-document transform returns the original content object
unchanged, with a removal count of zero, so the document is not rewritten. -/
theorem claim_C6 (entries : List UnusedBlockId) (content : List Char)
    (h : ∀ b ∈ entries, ¬(0 ≤ b.lineNumber ∧
      b.lineNumber < ((splitLines content).length : Int) ∧
      delTest ((splitLines content).getD b.lineNumber.toNat []) b.id.data = true)) :
    processFileContent entries content = (content, 0) := by
  simp only [processFileContent]
  rw [foldl_stepEntry_skip entries (splitLines content) h]
  simp

/-- C6 witness: a batch whose only entry no longer matches leaves the
document content unchanged. -/
theorem claim_C6_witness :
    processFileContent [⟨"abc123", "A.md", "Some text. ^abc123", 0⟩]
        ("Some edited text").data = (("Some edited text").data, 0) :=
  claim_C6 [⟨"abc123", "A.md", "Some text. ^abc123", 0⟩]
    ("Some edited text").data (by decide)

/-- C7: an unresolvable reference contributes nothing.  If the
link-resolution collaborator returns no document for every occurrence on a
line (in particular for a line with a single unresolvable occurrence), then
processing that line adds nothing to the reference set, so such references
never suppress an unused verdict. -/
theorem claim_C7 (resolve : String → String → Option String) (filePath : String)
    (st : ScanState) (line : List Char) (index : Nat)
    (h : ∀ occ ∈ lineRefOccurrences line, resolve occ.1 filePath = none) :
    (collectLine resolve filePath st line index).refs = st.refs := by
  rw [collectLine_refs]
  exact foldl_addRef_none resolve filePath (lineRefOccurrences line) st.refs h

/-- C7 witness: scanning the line `[[Nonexistent#^abc123]]` with a resolver
that knows no documents leaves the reference set empty. -/
theorem claim_C7_witness :
    (collectLine (fun _ _ => none) "B.md" ⟨[], []⟩
      ("[[Nonexistent#^abc123]]").data 0).refs = [] :=
  claim_C7 (fun _ _ => none) "B.md" ⟨[], []⟩ ("[[Nonexistent#^abc123]]").data 0
    (fun _ _ => rfl)

/-- C8: idempotence of the scan.  Two sequential scan invocations over the
same corpus and resolver return identical unused lists: each invocation
starts from a freshly created definition map and reference set, and the scan
is a pure function of its inputs. -/
theorem claim_C8 (resolve : String → String → Option String)
    (files : List (String × String)) :
    (scanTwice resolve files).1 = (scanTwice resolve files).2 := rfl

/-- C10: out-of-bounds safety.  An entry whose recorded line number is
negative or at least the current number of lines is skipped: no line is
read or modified, the removed count is not incremented, and no error is
raised (the step is total). -/
theorem claim_C10 (lines : List (List Char)) (changed : Bool) (removed : Nat)
    (b : UnusedBlockId)
    (h : b.lineNumber < 0 ∨ (lines.length : Int) ≤ b.lineNumber) :
    stepEntry (lines, changed, removed) b = (lines, changed, removed) := by
  apply stepEntry_skip
  intro hc
  obtain ⟨ha, hb, _⟩ := hc
  rcases h with h | h <;> omega

/-- C10 witness: an entry with line number `-1` is skipped without touching
the single-line document. -/
theorem claim_C10_witness :
    stepEntry ([("a ^abc123").data], false, 0) ⟨"abc123", "A.md", "x", -1⟩ =
      ([("a ^abc123").data], false, 0) :=
  claim_C10 [("a ^abc123").data] false 0 ⟨"abc123", "A.md", "x", -1⟩
    (Or.inl (by decide))

theorem defMatch_iff (line tok : List Char) :
    defMatch line = some tok ↔
    ∃ pre, line = pre ++ '^' :: tok ∧ tok ≠ [] ∧ tok.all isTokenChar = true ∧
      (pre = [] ∨ ∃ pre2 d, pre = pre2 ++ [d] ∧ isJsSpace d = true) := by
  constructor
  · intro h
    simp only [defMatch] at h
    by_cases he : (line.reverse.takeWhile isTokenChar).isEmpty = true
    · rw [if_pos he] at h; cases h
    rw [if_neg he] at h
    have htok_ne : (line.reverse.takeWhile isTokenChar).reverse ≠ [] := by
      intro hcontra
      exact he (by simp [List.reverse_eq_nil_iff.mp hcontra])
    have hall : (line.reverse.takeWhile isTokenChar).reverse.all isTokenChar = true := by
      rw [List.all_reverse]; exact all_takeWhile isTokenChar line.reverse
    rcases hd : line.reverse.dropWhile isTokenChar with _ | ⟨c, rest2⟩ <;> rw [hd] at h
    · simp at h
    simp only [List.head?_cons, List.tail_cons] at h
    by_cases hc : c = '^'
    swap
    · rw [if_neg (by simp [hc])] at h; cases h
    subst hc
    rw [if_pos rfl] at h
    have hsplit : line = rest2.reverse ++ '^' :: (line.reverse.takeWhile isTokenChar).reverse := by
      have h0 : line.reverse = line.reverse.takeWhile isTokenChar ++ ('^' :: rest2) := by
        rw [← hd, List.takeWhile_append_dropWhile]
      have h1 := congrArg List.reverse h0
      rw [List.reverse_reverse] at h1
      nth_rewrite 1 [h1]
      simp
    rcases rest2 with _ | ⟨d, t⟩
    · rw [if_pos rfl] at h
      have h1 : (line.reverse.takeWhile isTokenChar).reverse = tok := by
        injection h
      refine ⟨[], ?_, ?_, ?_, Or.inl rfl⟩
      · rw [← h1]; simpa using hsplit
      · rw [← h1]; exact htok_ne
      · rw [← h1]; exact hall
    · rw [if_neg (by simp)] at h
      by_cases hd2 : isJsSpace d = true
      · rw [if_pos (by simp [hd2])] at h
        have h1 : (line.reverse.takeWhile isTokenChar).reverse = tok := by
          injection h
        refine ⟨(d :: t).reverse, ?_, ?_, ?_, Or.inr ⟨t.reverse, d, by simp, hd2⟩⟩
        · rw [← h1]; exact hsplit
        · rw [← h1]; exact htok_ne
        · rw [← h1]; exact hall
      · rw [if_neg (by simp [hd2])] at h; cases h
  · rintro ⟨pre, rfl, htok, hall, hpre⟩
    have hallrev : ∀ x ∈ tok.reverse, isTokenChar x = true := by
      intro x hx
      exact List.all_eq_true.mp hall x (List.mem_reverse.mp hx)
    have htw : ((pre ++ '^' :: tok).reverse).takeWhile isTokenChar = tok.reverse := by
      rw [show (pre ++ '^' :: tok).reverse = tok.reverse ++ '^' :: pre.reverse from by simp]
      exact takeWhile_append_all tok.reverse '^' pre.reverse hallrev (by decide)
    have hdw : ((pre ++ '^' :: tok).reverse).dropWhile isTokenChar = '^' :: pre.reverse := by
      rw [show (pre ++ '^' :: tok).reverse = tok.reverse ++ '^' :: pre.reverse from by simp]
      exact dropWhile_append_all tok.reverse '^' pre.reverse hallrev (by decide)
    have hne : ¬(tok.reverse.isEmpty = true) := by
      simpa using htok
    rcases hpre with rfl | ⟨pre2, d, rfl, hd2⟩
    · simp only [defMatch, htw, hdw]
      rw [if_neg hne]
      simp
    · simp only [defMatch, htw, hdw]
      rw [if_neg hne]
      simp [hd2]

theorem defMatch_tok (line tok : List Char) (h : defMatch line = some tok) :
    tok ≠ [] ∧ tok.all isTokenChar = true := by
  obtain ⟨pre, _, htok, hall, _⟩ := (defMatch_iff line tok).mp h
  exact ⟨htok, hall⟩

theorem defMatch_valid (line tok : List Char) (h : defMatch line = some tok) :
    isValidBlockId (String.mk tok) = true := by
  obtain ⟨htok, hall⟩ := defMatch_tok line tok h
  cases tok with
  | nil => exact absurd rfl htok
  | cons c t => simp only [isValidBlockId] at *; simp_all

theorem defMatch_no_hash (line tok : List Char) (h : defMatch line = some tok) :
    '#' ∉ tok := by
  obtain ⟨_, hall⟩ := defMatch_tok line tok h
  intro hmem
  have := List.all_eq_true.mp hall '#' hmem
  exact absurd this (by decide)

/-- C2 counterexample: the line `foo^bar` satisfies the grammar claimed by
the spec (empty whitespace run before the caret), yet the collector's
definition regex `(?:\s|^)\^([\w-]+)$` does not match it, because the caret
must be preceded by a whitespace character or start the line. -/
theorem claim_C2_counterexample :
    specDefGrammar ("foo^bar").data ("bar").data ∧
    defMatch ("foo^bar").data = none :=
  ⟨⟨("foo").data, [], by decide, by decide, by decide, by decide⟩, by decide⟩

/-- C2 (amended): a line yields a definition with identifier `tok` iff it
ends with a caret immediately followed by the nonempty token run `tok`
(letters, digits, underscore, hyphen) and the caret is either at the start
of the line or immediately preceded by a whitespace character — not merely
preceded by an optional, possibly empty, whitespace run. -/
theorem claim_C2_amended (line tok : List Char) :
    defMatch line = some tok ↔
    ∃ pre, line = pre ++ '^' :: tok ∧ tok ≠ [] ∧ tok.all isTokenChar = true ∧
      (pre = [] ∨ ∃ pre2 d, pre = pre2 ++ [d] ∧ isJsSpace d = true) :=
  defMatch_iff line tok

theorem contains_iff_mem (s : List String) (k : String) :
    s.contains k = true ↔ k ∈ s := by
  rw [List.contains_eq_any_beq, List.any_eq_true]
  constructor
  · rintro ⟨x, hx, hbx⟩
    rw [show k = x from eq_of_beq hbx]
    exact hx
  · intro h
    exact ⟨k, h, by simp⟩

theorem not_contains_iff (s : List String) (k : String) :
    ((!(s.contains k)) = true) ↔ k ∉ s := by
  constructor
  · intro h hmem
    have h1 : s.contains k = true := (contains_iff_mem s k).mpr hmem
    rw [h1] at h
    exact absurd h (by decide)
  · intro h
    have h1 : s.contains k ≠ true := fun hc => h ((contains_iff_mem s k).mp hc)
    rcases Bool.eq_false_or_eq_true (s.contains k) with h2 | h2
    · exact absurd h2 h1
    · rw [h2]; rfl

/-- C1: distinct identity.  A collected definition appears in the unused
list iff the key built from its own document and identifier is absent from
the global reference set; and for any other document the key `D2#x` differs
from `D1#x`, so a reference resolving to a different document can never
suppress a definition with the same identifier text. -/
theorem claim_C1 (resolve : String → String → Option String)
    (files : List (String × String)) (d : UnusedBlockId) :
    (d ∈ findUnusedBlockIds resolve files ↔
      (∃ g ∈ (scanCorpus resolve files).blockIds, d ∈ g.2) ∧
      mkKey d.file d.id ∉ (scanCorpus resolve files).refs) ∧
    (∀ D2 : String, D2 ≠ d.file → mkKey D2 d.id ≠ mkKey d.file d.id) := by
  constructor
  · unfold findUnusedBlockIds
    rw [mem_flatMapL]
    constructor
    · rintro ⟨g, hg, hdg⟩
      rw [List.mem_filter] at hdg
      exact ⟨⟨g, hg, hdg.1⟩, (not_contains_iff _ _).mp hdg.2⟩
    · rintro ⟨⟨g, hg, hdg⟩, hk⟩
      refine ⟨g, hg, ?_⟩
      rw [List.mem_filter]
      exact ⟨hdg, (not_contains_iff _ _).mpr hk⟩
  · intro D2 hne heq
    exact hne (mkKey_inj_file D2 d.file d.id heq)

/-- C1 witness: the key of document `B.md` differs from the key of document
`A.md` for the same identifier text. -/
theorem claim_C1_witness : mkKey "B.md" "a" ≠ mkKey "A.md" "a" :=
  (claim_C1 (fun _ _ => none) [("A.md", "x ^a")] ⟨"a", "A.md", "x ^a", 0⟩).2
    "B.md" (by decide)

theorem find?_some_of_mapGet (m : List (String × List UnusedBlockId)) (k : String)
    (l : List UnusedBlockId) (h : mapGet m k = some l) :
    ∃ p ∈ m, (p.1 == k) = true := by
  unfold mapGet at h
  rcases hf : m.find? (fun p => p.1 == k) with _ | p
  · rw [hf] at h; cases h
  · have hp := List.find?_some hf
    exact ⟨p, List.mem_of_find?_eq_some hf, hp⟩

theorem mapGet_cons_pos (q : String × List UnusedBlockId)
    (t : List (String × List UnusedBlockId)) (k : String)
    (hk : (q.1 == k) = true) : mapGet (q :: t) k = some q.2 := by
  simp [mapGet, List.find?_cons, hk]

theorem mapGet_cons_neg (q : String × List UnusedBlockId)
    (t : List (String × List UnusedBlockId)) (k : String)
    (hk : (q.1 == k) = false) : mapGet (q :: t) k = mapGet t k := by
  simp [mapGet, List.find?_cons, hk]

theorem mapGet_mapPush (m : List (String × List UnusedBlockId)) (k : String)
    (v : UnusedBlockId) (l : List UnusedBlockId) (h : mapGet m k = some l) :
    mapGet (mapPush m k v) k = some (l ++ [v]) := by
  have hany : (m.any (fun p => p.1 == k)) = true := by
    obtain ⟨p, hp, hpk⟩ := find?_some_of_mapGet m k l h
    exact List.any_eq_true.mpr ⟨p, hp, hpk⟩
  unfold mapPush
  rw [if_pos hany]
  clear hany
  induction m with
  | nil => simp [mapGet] at h
  | cons q t ih =>
    rcases Bool.eq_false_or_eq_true (q.1 == k) with hk | hk
    · rw [mapGet_cons_pos q t k hk] at h
      rw [List.map_cons, if_pos hk, mapGet_cons_pos (q.1, q.2 ++ [v]) _ k hk]
      injection h with h2
      rw [h2]
    · rw [mapGet_cons_neg q t k hk] at h
      rw [List.map_cons, if_neg (by simp [hk]), mapGet_cons_neg q _ k hk]
      exact ih h

theorem collectLine_blockIds_none (resolve : String → String → Option String)
    (filePath : String) (st : ScanState) (line : List Char) (index : Nat)
    (h : defMatch line = none) :
    (collectLine resolve filePath st line index).blockIds = st.blockIds := by
  unfold collectLine
  rw [h]

theorem collectLine_blockIds (resolve : String → String → Option String)
    (filePath : String) (st : ScanState) (line : List Char) (index : Nat)
    (tok : List Char) (h : defMatch line = some tok) :
    (collectLine resolve filePath st line index).blockIds =
      mapPush st.blockIds (mkKey filePath (String.mk tok))
        ⟨String.mk tok, filePath, String.mk (trimJs line), (index : Int)⟩ := by
  unfold collectLine
  rw [h]
  have hv := defMatch_valid line tok h
  simp [hv]

/-- C3 counterexample: in a document whose two lines both define the
identifier `a`, the scan retains both occurrences, so the unused list
contains two entries with the same (documentId, identifierText) key —
the earlier occurrence is not replaced. -/
theorem claim_C3_counterexample :
    ((findUnusedBlockIds (fun _ _ => none) [("A.md", "x ^a\ny ^a")]).map
        (fun d => (d.file, d.id)) = [("A.md", "a"), ("A.md", "a")]) ∧
    ¬ ((findUnusedBlockIds (fun _ _ => none) [("A.md", "x ^a\ny ^a")]).map
        (fun d => (d.file, d.id))).Nodup := by
  constructor
  · decide
  · decide

/-- C3 (amended): all occurrences are retained.  When a later line of the
same document defines an identifier text already present in the working
map, the new Definition is appended after the existing occurrences of that
(documentId, identifierText) key — nothing is replaced, so the unused list
may contain several entries with the same key. -/
theorem claim_C3_amended (resolve : String → String → Option String)
    (filePath : String) (st : ScanState) (line : List Char) (index : Nat)
    (tok : List Char) (l : List UnusedBlockId)
    (h1 : defMatch line = some tok)
    (h2 : mapGet st.blockIds (mkKey filePath (String.mk tok)) = some l) :
    mapGet (collectLine resolve filePath st line index).blockIds
        (mkKey filePath (String.mk tok)) =
      some (l ++ [⟨String.mk tok, filePath, String.mk (trimJs line), (index : Int)⟩]) := by
  rw [collectLine_blockIds resolve filePath st line index tok h1]
  exact mapGet_mapPush _ _ _ _ h2

/-- C3 witness: scanning the line `y ^a` of document `A.md` when the map
already holds the line-0 definition of `a` appends the new occurrence after
it. -/
theorem claim_C3_witness :
    mapGet (collectLine (fun _ _ => none) "A.md"
        ⟨[("A.md#a", [⟨"a", "A.md", "x ^a", 0⟩])], []⟩ (("y ^a").data) 1).blockIds
      (mkKey "A.md" (String.mk ['a'])) =
      some ([⟨"a", "A.md", "x ^a", 0⟩] ++
        [⟨String.mk ['a'], "A.md", String.mk (trimJs (("y ^a").data)), 1⟩]) :=
  claim_C3_amended (fun _ _ => none) "A.md"
    ⟨[("A.md#a", [⟨"a", "A.md", "x ^a", 0⟩])], []⟩ (("y ^a").data) 1 ['a']
    [⟨"a", "A.md", "x ^a", 0⟩] (by decide) (by decide)

theorem docMatchesFrom_cons_some (n : Nat) (l : List Char) (ls : List (List Char))
    (tok : List Char) (h : defMatch l = some tok) :
    docMatchesFrom n (l :: ls) = (n, l, tok) :: docMatchesFrom (n + 1) ls := by
  simp [docMatchesFrom, h]

theorem docMatchesFrom_cons_none (n : Nat) (l : List Char) (ls : List (List Char))
    (h : defMatch l = none) :
    docMatchesFrom n (l :: ls) = docMatchesFrom (n + 1) ls := by
  simp [docMatchesFrom, h]

theorem docMatchesFrom_defMatch :
    ∀ (lines : List (List Char)) (n : Nat) (m : Nat × List Char × List Char),
      m ∈ docMatchesFrom n lines → defMatch m.2.1 = some m.2.2 := by
  intro lines
  induction lines with
  | nil => intro n m h; simp [docMatchesFrom] at h
  | cons l ls ih =>
    intro n m h
    cases hd : defMatch l with
    | some tok =>
      rw [docMatchesFrom_cons_some n l ls tok hd] at h
      rcases List.mem_cons.mp h with rfl | h2
      · exact hd
      · exact ih (n + 1) m h2
    | none =>
      rw [docMatchesFrom_cons_none n l ls hd] at h
      exact ih (n + 1) m h

theorem docMatchesFrom_lb :
    ∀ (lines : List (List Char)) (n : Nat) (m : Nat × List Char × List Char),
      m ∈ docMatchesFrom n lines → n ≤ m.1 := by
  intro lines
  induction lines with
  | nil => intro n m h; simp [docMatchesFrom] at h
  | cons l ls ih =>
    intro n m h
    cases hd : defMatch l with
    | some tok =>
      rw [docMatchesFrom_cons_some n l ls tok hd] at h
      rcases List.mem_cons.mp h with rfl | h2
      · exact Nat.le_refl n
      · exact Nat.le_of_succ_le (ih (n + 1) m h2)
    | none =>
      rw [docMatchesFrom_cons_none n l ls hd] at h
      exact Nat.le_of_succ_le (ih (n + 1) m h)

theorem docMatchesFrom_pairwise :
    ∀ (lines : List (List Char)) (n : Nat),
      (docMatchesFrom n lines).Pairwise (fun a b => a.1 < b.1) := by
  intro lines
  induction lines with
  | nil => intro n; simp [docMatchesFrom]
  | cons l ls ih =>
    intro n
    cases hd : defMatch l with
    | some tok =>
      rw [docMatchesFrom_cons_some n l ls tok hd, List.pairwise_cons]
      refine ⟨?_, ih (n + 1)⟩
      intro m hm
      exact Nat.lt_of_succ_le (docMatchesFrom_lb ls (n + 1) m hm)
    | none =>
      rw [docMatchesFrom_cons_none n l ls hd]
      exact ih (n + 1)

theorem mapPush_fresh (m : List (String × List UnusedBlockId)) (k : String)
    (v : UnusedBlockId) (h : k ∉ keysOf m) : mapPush m k v = m ++ [(k, [v])] := by
  have hn : ¬(m.any (fun p => p.1 == k) = true) := by
    intro hany
    obtain ⟨p, hp, hpk⟩ := List.any_eq_true.mp hany
    exact h (List.mem_map.mpr ⟨p, hp, eq_of_beq hpk⟩)
  unfold mapPush
  rw [if_neg hn]

theorem collectDoc_blockIds :
    ∀ (lines : List (List Char)) (n : Nat) (st : ScanState)
      (resolve : String → String → Option String) (path : String),
      (∀ m ∈ docMatchesFrom n lines,
        mkKey path (String.mk m.2.2) ∉ keysOf st.blockIds) →
      ((docMatchesFrom n lines).map (fun m => String.mk m.2.2)).Pairwise (· ≠ ·) →
      ((withIndexFrom n lines).foldl
          (fun s p => collectLine resolve path s p.2 p.1) st).blockIds =
        st.blockIds ++ (docMatchesFrom n lines).map (mkGroup path) := by
  intro lines
  induction lines with
  | nil => intro n st resolve path _ _; simp [docMatchesFrom, withIndexFrom]
  | cons l ls ih =>
    intro n st resolve path hfresh hnodup
    rw [show withIndexFrom n (l :: ls) = (n, l) :: withIndexFrom (n + 1) ls from rfl,
      List.foldl_cons]
    cases hd : defMatch l with
    | none =>
      rw [docMatchesFrom_cons_none n l ls hd] at hfresh hnodup ⊢
      have hb := collectLine_blockIds_none resolve path st l n hd
      have ihh := ih (n + 1) (collectLine resolve path st l n) resolve path
        (fun m hm => by rw [hb]; exact hfresh m hm) hnodup
      rw [ihh, hb]
    | some tok =>
      rw [docMatchesFrom_cons_some n l ls tok hd] at hfresh hnodup ⊢
      have hb := collectLine_blockIds resolve path st l n tok hd
      have hfresh0 : mkKey path (String.mk tok) ∉ keysOf st.blockIds :=
        hfresh (n, l, tok) (by simp)
      have hpush : (collectLine resolve path st l n).blockIds
          = st.blockIds ++ [(mkKey path (String.mk tok),
              [⟨String.mk tok, path, String.mk (trimJs l), (n : Int)⟩])] := by
        rw [hb]; exact mapPush_fresh _ _ _ hfresh0
      rw [List.map_cons] at hnodup
      have hnodup2 := List.pairwise_cons.mp hnodup
      have hhead : ∀ m ∈ docMatchesFrom (n + 1) ls,
          String.mk tok ≠ String.mk m.2.2 := by
        intro m hm
        exact hnodup2.1 _ (List.mem_map_of_mem _ hm)
      have hfresh' : ∀ m ∈ docMatchesFrom (n + 1) ls,
          mkKey path (String.mk m.2.2) ∉
            keysOf (collectLine resolve path st l n).blockIds := by
        intro m hm hmem
        rw [hpush] at hmem
        simp only [keysOf, List.map_append, List.map_cons, List.map_nil] at hmem
        rcases List.mem_append.mp hmem with h1 | h1
        · exact hfresh m (by simp [hm]) h1
        · have heq : mkKey path (String.mk m.2.2) = mkKey path (String.mk tok) := by
            simpa using h1
          exact hhead m hm ((mkKey_inj_id _ _ _ heq).symm)
      have ihh := ih (n + 1) (collectLine resolve path st l n) resolve path
        hfresh' hnodup2.2
      rw [ihh, hpush]
      simp [List.append_assoc, mkGroup, mkDef]

theorem scan_blockIds :
    ∀ (files : List (String × String)) (st : ScanState)
      (resolve : String → String → Option String),
      ((files.map Prod.fst).Pairwise (· ≠ ·)) →
      (∀ f ∈ files, ((docMatchesFrom 0 (splitLines f.2.data)).map
        (fun m => String.mk m.2.2)).Pairwise (· ≠ ·)) →
      (∀ k ∈ keysOf st.blockIds, ∃ g t, k = mkKey g t ∧ ('#' ∉ t.data) ∧
        g ∉ files.map Prod.fst) →
      (files.foldl (collectDoc resolve) st).blockIds =
        st.blockIds ++ flatMapL
          (fun f => (docMatchesFrom 0 (splitLines f.2.data)).map (mkGroup f.1))
          files := by
  intro files
  induction files with
  | nil => intro st resolve _ _ _; simp [flatMapL]
  | cons f fs ih =>
    intro st resolve hpaths hdocs hkeys
    rw [List.map_cons] at hpaths
    have hpaths2 := List.pairwise_cons.mp hpaths
    rw [List.foldl_cons]
    have hfresh : ∀ m ∈ docMatchesFrom 0 (splitLines f.2.data),
        mkKey f.1 (String.mk m.2.2) ∉ keysOf st.blockIds := by
      intro m hm hmem
      obtain ⟨g, t, hk, hht, hgnot⟩ := hkeys _ hmem
      have hhash : '#' ∉ (String.mk m.2.2).data := by
        have := defMatch_no_hash m.2.1 m.2.2 (docMatchesFrom_defMatch _ _ _ hm)
        simpa using this
      obtain ⟨hfg, _⟩ := mkKey_inj f.1 g (String.mk m.2.2) t hhash hht hk
      exact hgnot (by rw [← hfg]; simp)
    have hstep : (collectDoc resolve st f).blockIds =
        st.blockIds ++ (docMatchesFrom 0 (splitLines f.2.data)).map (mkGroup f.1) :=
      collectDoc_blockIds (splitLines f.2.data) 0 st resolve f.1 hfresh
        (hdocs f (by simp))
    have hkeys' : ∀ k ∈ keysOf (collectDoc resolve st f).blockIds,
        ∃ g t, k = mkKey g t ∧ ('#' ∉ t.data) ∧ g ∉ fs.map Prod.fst := by
      intro k hkmem
      rw [hstep] at hkmem
      simp only [keysOf, List.map_append] at hkmem
      rcases List.mem_append.mp hkmem with h1 | h1
      · obtain ⟨g, t, hk, hht, hgnot⟩ := hkeys k h1
        exact ⟨g, t, hk, hht, fun hmem => hgnot (by simp [hmem])⟩
      · rw [List.map_map] at h1
        obtain ⟨m, hm, hkm⟩ := List.mem_map.mp h1
        refine ⟨f.1, String.mk m.2.2, ?_, ?_, ?_⟩
        · rw [← hkm]; rfl
        · have := defMatch_no_hash m.2.1 m.2.2 (docMatchesFrom_defMatch _ _ _ hm)
          simpa using this
        · intro hmem
          exact hpaths2.1 _ hmem rfl
    have ihh := ih (collectDoc resolve st f) resolve hpaths2.2
      (fun x hx => hdocs x (by simp [hx])) hkeys'
    rw [ihh, hstep, List.append_assoc]
    rfl

theorem flatMapL_filter (q : UnusedBlockId → Bool) :
    ∀ (m : List (String × List UnusedBlockId)),
      flatMapL (fun p => p.2.filter q) m = (flatMapL Prod.snd m).filter q := by
  intro m
  induction m with
  | nil => rfl
  | cons p t ih => simp [flatMapL, List.filter_append, ih]

theorem flatMapL_snd_groups (path : String) :
    ∀ (ms : List (Nat × List Char × List Char)),
      flatMapL Prod.snd (ms.map (mkGroup path)) = ms.map (mkDef path) := by
  intro ms
  induction ms with
  | nil => rfl
  | cons m t ih => simp [flatMapL, mkGroup, ih]

theorem flatMapL_flatMapL {α β γ : Type} (g : α → List β) (h : β → List γ) :
    ∀ (l : List α),
      flatMapL h (flatMapL g l) = flatMapL (fun a => flatMapL h (g a)) l := by
  intro l
  induction l with
  | nil => rfl
  | cons x xs ih =>
    rw [show flatMapL g (x :: xs) = g x ++ flatMapL g xs from rfl,
      flatMapL_append, ih]
    rfl

theorem flatMapL_congr {α β : Type} (f g : α → List β) :
    ∀ (l : List α), (∀ a ∈ l, f a = g a) → flatMapL f l = flatMapL g l := by
  intro l
  induction l with
  | nil => intro _; rfl
  | cons x xs ih =>
    intro h
    rw [show flatMapL f (x :: xs) = f x ++ flatMapL f xs from rfl,
      show flatMapL g (x :: xs) = g x ++ flatMapL g xs from rfl,
      h x (by simp), ih (fun a ha => h a (by simp [ha]))]

theorem findUnused_structure (resolve : String → String → Option String)
    (files : List (String × String))
    (hpaths : (files.map Prod.fst).Pairwise (· ≠ ·))
    (hdocs : ∀ f ∈ files, ((docMatchesFrom 0 (splitLines f.2.data)).map
      (fun m => String.mk m.2.2)).Pairwise (· ≠ ·)) :
    findUnusedBlockIds resolve files =
      (flatMapL (fun f => (docMatchesFrom 0 (splitLines f.2.data)).map (mkDef f.1))
          files).filter
        (fun item =>
          !((scanCorpus resolve files).refs.contains (mkKey item.file item.id))) := by
  have hs : (scanCorpus resolve files).blockIds =
      flatMapL (fun f => (docMatchesFrom 0 (splitLines f.2.data)).map (mkGroup f.1))
        files := by
    have h0 := scan_blockIds files ⟨[], []⟩ resolve hpaths hdocs
      (by intro k hk; simp [keysOf] at hk)
    simpa [scanCorpus] using h0
  simp only [findUnusedBlockIds]
  rw [hs, flatMapL_filter, flatMapL_flatMapL]
  rw [flatMapL_congr _ _ files (fun f _ => flatMapL_snd_groups f.1 _)]

theorem idxOfStr_getElem :
    ∀ (l : List String), l.Pairwise (· ≠ ·) → ∀ (i : Nat) (h : i < l.length),
      idxOfStr (l[i]) l = i := by
  intro l
  induction l with
  | nil => intro _ i h; simp at h
  | cons x xs ih =>
    intro hp i h
    cases i with
    | zero => simp [idxOfStr]
    | succ j =>
      have hj : j < xs.length := by
        simp only [List.length_cons] at h
        omega
      have hmem : xs[j] ∈ xs := List.getElem_mem hj
      have hne : ¬(x = xs[j]) := (List.pairwise_cons.mp hp).1 _ hmem
      simp only [List.getElem_cons_succ, idxOfStr]
      rw [if_neg hne, ih (List.pairwise_cons.mp hp).2 j hj]

theorem pairwise_idxOfStr (l : List String) (h : l.Pairwise (· ≠ ·)) :
    l.Pairwise (fun a b => idxOfStr a l < idxOfStr b l) := by
  rw [List.pairwise_iff_getElem]
  intro i j hi hj hij
  rw [idxOfStr_getElem l h i hi, idxOfStr_getElem l h j hj]
  exact hij

/-- C9 counterexample: in a document that defines `a` on lines 0 and 2 and
`b` on line 1, the unused list comes out in key-insertion order
`[a@0, a@2, b@1]` — the entry for line 2 precedes the entry for line 1 of
the same document, refuting strict in-document line ordering. -/
theorem claim_C9_counterexample :
    ((findUnusedBlockIds (fun _ _ => none) [("A.md", "x ^a\ny ^b\nz ^a")]).map
        (fun d => (d.file, d.lineNumber)) =
      [("A.md", 0), ("A.md", 2), ("A.md", 1)]) ∧
    ¬ (findUnusedBlockIds (fun _ _ => none)
        [("A.md", "x ^a\ny ^b\nz ^a")]).Pairwise
        (fun a b => a.file = b.file → a.lineNumber < b.lineNumber) := by
  constructor
  · decide
  · decide

/-- C9 (amended): when the supplied document paths are distinct and no
document defines the same identifier text twice, the unused list is ordered
by document supply order and, within a document, by increasing line index.
With duplicate identifiers the list instead follows first-insertion order of
each (documentId, identifierText) key, as the counterexample shows. -/
theorem claim_C9_amended (resolve : String → String → Option String)
    (files : List (String × String))
    (hpaths : (files.map Prod.fst).Pairwise (· ≠ ·))
    (hdocs : ∀ f ∈ files, ((docMatchesFrom 0 (splitLines f.2.data)).map
      (fun m => String.mk m.2.2)).Pairwise (· ≠ ·)) :
    (findUnusedBlockIds resolve files).Pairwise (defOrder files) := by
  rw [findUnused_structure resolve files hpaths hdocs]
  apply List.Pairwise.filter
  apply pairwise_flatMapL
  · intro f _
    rw [List.pairwise_map]
    apply (docMatchesFrom_pairwise _ 0).imp
    intro a b hab
    right
    refine ⟨rfl, ?_⟩
    show ((a.1 : Int)) < ((b.1 : Int))
    exact_mod_cast hab
  · have hcross : files.Pairwise (fun f g =>
        idxOfStr f.1 (files.map Prod.fst) < idxOfStr g.1 (files.map Prod.fst)) := by
      have h1 := pairwise_idxOfStr (files.map Prod.fst) hpaths
      rw [List.pairwise_map] at h1
      exact h1
    apply hcross.imp
    intro f g hfg x hx y hy
    obtain ⟨mx, _, rfl⟩ := List.mem_map.mp hx
    obtain ⟨my, _, rfl⟩ := List.mem_map.mp hy
    exact Or.inl hfg

/-- C9 witness: a two-document corpus with distinct identifiers per document
yields an unused list ordered by document then line. -/
theorem claim_C9_witness :
    (findUnusedBlockIds (fun _ _ => none)
        [("A.md", "x ^a\ny ^b"), ("B.md", "z ^c")]).Pairwise
      (defOrder [("A.md", "x ^a\ny ^b"), ("B.md", "z ^c")]) :=
  claim_C9_amended (fun _ _ => none) [("A.md", "x ^a\ny ^b"), ("B.md", "z ^c")]
    (by decide) (by decide)
